import Mathlib

/-!
Shallow embedding of `titan_v3.py` (Titan Combinatorics Solver).

The solver works on unbounded signed integers (Python `int` ↦ `Int`).
Python dicts preserve insertion order, so a Vault is embedded as an
insertion-ordered association list from sum to witness subset.
`itertools.combinations(tranche, r)` enumerates the length-`r`
sub-sequences of `tranche` in lexicographic order of positions, which is
exactly what `combinations` below produces.
-/

namespace Titan

abbrev Elem := Int

/-- The solution dictionary `{'subset': ..., 'sum': ...}` returned by the
searches and by the max-sum branch of `_sieve_and_combine`. -/
structure Solution where
  subset : List Elem
  sum : Int
deriving Repr, DecidableEq

/-- A Python dict mapping a subset sum to its witness subset, embedded as an
insertion-ordered association list (Python dicts preserve insertion order). -/
abbrev Vault := List (Int × List Elem)

/-- `itertools.combinations(xs, r)`: all length-`r` sub-sequences of `xs`,
by position, in the order itertools produces them. -/
def combinations : Nat → List Elem → List (List Elem)
  | 0, _ => [[]]
  | _ + 1, [] => []
  | r + 1, x :: xs => (combinations r xs).map (x :: ·) ++ combinations (r + 1) xs

/-- The keys of a vault, in insertion order (`dict.keys()`). -/
def vaultKeys (v : Vault) : List Int := v.map Prod.fst

/-- `vault[k]` as an option: the first entry whose key is `k`. -/
def vaultLookup (v : Vault) (k : Int) : Option (List Elem) :=
  match v with
  | [] => none
  | (k', s) :: rest => if k' = k then some s else vaultLookup rest k

/-- `k in vault` (Python key-membership test). -/
def vaultHasKey (v : Vault) (k : Int) : Bool := (vaultLookup v k).isSome

/-- `if s not in vault: vault[s] = subset` — insert appends a fresh key at
the end of the dict, and leaves the dict unchanged when the key exists. -/
def vaultInsert (v : Vault) (k : Int) (s : List Elem) : Vault :=
  if vaultHasKey v k then v else v ++ [(k, s)]

/-- The loop body of `_build_vault` run over a list of candidate subsets:
each subset is inserted under its sum, first-found-wins. -/
def insertSubsets (v : Vault) (subs : List (List Elem)) : Vault :=
  subs.foldl (fun acc sub => vaultInsert acc sub.sum sub) v

/-- `TitanSolver._build_vault`: start from `{0: ()}`, then insert every
subset produced by `itertools.combinations(tranche, r)` for
`r = 1 .. len(tranche)` under its sum, first-found-wins. -/
def build_vault (tranche : List Elem) : Vault :=
  insertSubsets [(0, [])]
    ((List.range' 1 tranche.length).flatMap (fun r => combinations r tranche))

/-- `sorted(numbers)` from `TitanSolver.__init__`. On a list of integers
the ascending-sorted list of values is unique, so any correct sort embeds
Python's `sorted`; insertion sort is used because it reduces in the kernel. -/
def sortNumbers (numbers : List Elem) : List Elem :=
  numbers.insertionSort (· ≤ ·)

/-- `TitanSolver._split_tranches`: `mid = len(numbers) // 2`,
left = `numbers[:mid]`, right = `numbers[mid:]`. -/
def split_tranches (numbers : List Elem) : List Elem × List Elem :=
  (numbers.take (numbers.length / 2), numbers.drop (numbers.length / 2))

/-- `TitanSolver._sequential_search`: walk the left vault in insertion
order; for each left sum test `needed = target - left_sum` for membership
in the right vault and return the combined subset on the first hit. -/
def sequential_search (target : Int) : Vault → Vault → Option Solution
  | [], _ => none
  | (left_sum, left_subset) :: rest, right_vault =>
    match vaultLookup right_vault (target - left_sum) with
    | some right_subset => some ⟨left_subset ++ right_subset, target⟩
    | none => sequential_search target rest right_vault

/-- The trace of `needed` values whose right-vault membership the
sequential search actually tests (it stops after the first hit). -/
def probedNeeded (target : Int) : Vault → Vault → List Int
  | [], _ => []
  | (left_sum, _) :: rest, right_vault =>
    let needed := target - left_sum
    if vaultHasKey right_vault needed then [needed]
    else needed :: probedNeeded target rest right_vault

/-- `chunk_size = max(1, len(left_items) // self.max_workers)`. -/
def chunkSize (nLeft workers : Nat) : Nat := max 1 (nLeft / workers)

/-- Structural worker for `chunksOf`: `fuel` bounds the number of chunks
(`fuel ≥ l.length` always suffices since each step consumes at least one
item); it exists only so that the kernel can evaluate the definition. -/
def chunksOfGo (k : Nat) : Nat → Vault → List Vault
  | 0, _ => []
  | fuel + 1, l =>
    if l = [] then []
    else l.take (max 1 k) :: chunksOfGo k fuel (l.drop (max 1 k))

/-- `[left_items[i:i+chunk_size] for i in range(0, len(left_items), chunk_size)]`.
The callers always pass `k = max 1 _ ≥ 1`; the inner `max 1 k` is the
identity at every call site. -/
def chunksOf (k : Nat) (l : Vault) : List Vault :=
  chunksOfGo k l.length l

/-- The nested `worker(chunk, right_v, tgt)` of `_parallel_search`: the same
loop as the sequential search, restricted to one chunk. -/
def worker (tgt : Int) (right_v : Vault) : Vault → Option Solution
  | [] => none
  | (left_sum, left_subset) :: rest =>
    match vaultLookup right_v (tgt - left_sum) with
    | some right_subset => some ⟨left_subset ++ right_subset, tgt⟩
    | none => worker tgt right_v rest

/-- The chunk list `_parallel_search` builds from the left vault. -/
def parallelChunks (workers : Nat) (left_vault : Vault) : List Vault :=
  chunksOf (chunkSize left_vault.length workers) left_vault

/-- `pool.starmap(worker, ...)`: the results list, one entry per chunk, in
submission order — every chunk task is executed unconditionally. -/
def parallelResults (workers : Nat) (tgt : Int) (left_vault right_vault : Vault) :
    List (Option Solution) :=
  (parallelChunks workers left_vault).map (worker tgt right_vault)

/-- `for result in results: if result is not None: return result`. -/
def firstSome : List (Option Solution) → Option Solution
  | [] => none
  | some s :: _ => some s
  | none :: rest => firstSome rest

/-- `TitanSolver._parallel_search` (the deterministic value `starmap`
computes): first non-`None` worker result in submission order. -/
def parallel_search (workers : Nat) (tgt : Int) (left_vault right_vault : Vault) :
    Option Solution :=
  firstSome (parallelResults workers tgt left_vault right_vault)

/-- `max(vault.keys())` — vaults are never empty (key 0 is always present),
so the default branch is unreachable at every call site. -/
def vaultMaxKey (v : Vault) : Int :=
  match vaultKeys v with
  | [] => 0
  | k :: ks => ks.foldl max k

/-- `TitanSolver._sieve_and_combine`: with no target, combine the max-key
witnesses of both vaults; with a target, dispatch on `enable_parallel`. -/
def sieve_and_combine (target : Option Int) (enable_parallel : Bool) (workers : Nat)
    (left_vault right_vault : Vault) : Option Solution :=
  match target with
  | none =>
      some ⟨(vaultLookup left_vault (vaultMaxKey left_vault)).getD [] ++
              (vaultLookup right_vault (vaultMaxKey right_vault)).getD [],
            vaultMaxKey left_vault + vaultMaxKey right_vault⟩
  | some t =>
      if enable_parallel then parallel_search workers t left_vault right_vault
      else sequential_search t left_vault right_vault

/-- `TitanSolver.solve` (its returned `solution` field): sort, split into
tranches, build both vaults, then sieve-and-combine. -/
def TitanSolve (numbers : List Elem) (target : Option Int) (enable_parallel : Bool)
    (workers : Nat) : Option Solution :=
  let ns := sortNumbers numbers
  let lr := split_tranches ns
  sieve_and_combine target enable_parallel workers (build_vault lr.1) (build_vault lr.2)

/-- `solve` in sequential exact-target mode. -/
def solveSeq (numbers : List Elem) (target : Int) : Option Solution :=
  TitanSolve numbers (some target) false 0

/-- `solve` in parallel exact-target mode (the value the algorithm denotes). -/
def solvePar (workers : Nat) (numbers : List Elem) (target : Int) : Option Solution :=
  TitanSolve numbers (some target) true workers

/-- The pair of vaults `solve` materializes in its PHASE 2 for an input. -/
def solveVaults (numbers : List Elem) : Vault × Vault :=
  let lr := split_tranches (sortNumbers numbers)
  (build_vault lr.1, build_vault lr.2)

/-- `generate_test_instance(size, max_val)`:
`[random.randint(1, max_val) for _ in range(size)]`. The random draws are
modelled by an oracle `draw`; `random.randint(1, max_val)` guarantees
`1 ≤ draw i ≤ max_val`, which theorems take as a hypothesis. `maxv` is kept
for signature fidelity, the produced list is `[draw 0, ..., draw (size-1)]`. -/
def generate_test_instance (size : Nat) (maxv : Nat) (draw : Nat → Int) : List Elem :=
  (List.range size).map draw

/-- Spec-side definition (§3 “Bounds”), for comparison with the code:
(min, max) over all keys of a Vault. The code computes no such bounds. -/
def specBounds (v : Vault) : Int × Int :=
  (match vaultKeys v with
   | [] => 0
   | k :: ks => ks.foldl min k,
   vaultMaxKey v)

/-! ### Vault lemmas -/

theorem vaultLookup_isSome_iff (v : Vault) (k : Int) :
    (vaultLookup v k).isSome ↔ k ∈ vaultKeys v := by
  induction v with
  | nil => simp [vaultLookup, vaultKeys]
  | cons p rest ih =>
    obtain ⟨k', s⟩ := p
    by_cases h : k' = k
    · subst h
      simp [vaultLookup, vaultKeys]
    · have hne : ¬(k = k') := fun hk => h hk.symm
      simp [vaultLookup, vaultKeys, h, hne, ih]

theorem vaultHasKey_iff (v : Vault) (k : Int) :
    vaultHasKey v k = true ↔ k ∈ vaultKeys v := by
  rw [vaultHasKey]
  exact vaultLookup_isSome_iff v k

theorem vaultLookup_mem {v : Vault} {k : Int} {s : List Elem}
    (h : vaultLookup v k = some s) : (k, s) ∈ v := by
  induction v with
  | nil => simp [vaultLookup] at h
  | cons p rest ih =>
    obtain ⟨k', s'⟩ := p
    by_cases hk : k' = k
    · simp [vaultLookup, hk] at h
      subst hk h
      exact List.mem_cons_self _ _
    · simp [vaultLookup, hk] at h
      exact List.mem_cons_of_mem _ (ih h)

theorem vaultKeys_vaultInsert_mono {v : Vault} {k : Int} (k' : Int) (s : List Elem)
    (h : k ∈ vaultKeys v) : k ∈ vaultKeys (vaultInsert v k' s) := by
  rw [vaultInsert]
  by_cases hk : vaultHasKey v k' <;> simp [hk, vaultKeys, List.map_append] at h ⊢
  · exact h
  · exact Or.inl h

theorem vaultKeys_vaultInsert_self (v : Vault) (k : Int) (s : List Elem) :
    k ∈ vaultKeys (vaultInsert v k s) := by
  rw [vaultInsert]
  by_cases hk : vaultHasKey v k
  · rw [if_pos hk]
    exact (vaultHasKey_iff v k).mp hk
  · rw [if_neg hk, vaultKeys, List.map_append]
    simp

theorem insertSubsets_keys_mono {v : Vault} {k : Int} (subs : List (List Elem))
    (h : k ∈ vaultKeys v) : k ∈ vaultKeys (insertSubsets v subs) := by
  induction subs generalizing v with
  | nil => simpa [insertSubsets] using h
  | cons sub rest ih =>
    rw [insertSubsets, List.foldl_cons]
    exact ih (vaultKeys_vaultInsert_mono _ _ h)

theorem insertSubsets_keys_of_mem {subs : List (List Elem)} {sub : List Elem}
    (v : Vault) (h : sub ∈ subs) : sub.sum ∈ vaultKeys (insertSubsets v subs) := by
  induction subs generalizing v with
  | nil => simp at h
  | cons s0 rest ih =>
    rw [insertSubsets, List.foldl_cons]
    rcases List.mem_cons.mp h with h0 | h1
    · subst h0
      exact insertSubsets_keys_mono rest (vaultKeys_vaultInsert_self v _ _)
    · exact ih _ h1

/-- The invariant `_build_vault` maintains: every entry maps the sum of a
sub-sequence of the tranche to that sub-sequence. -/
def VaultSound (tranche : List Elem) (v : Vault) : Prop :=
  ∀ p ∈ v, (p : Int × List Elem).2.sum = p.1 ∧ p.2.Sublist tranche

theorem vaultInsert_sound {tr : List Elem} {v : Vault} {k : Int} {s : List Elem}
    (hv : VaultSound tr v) (hs : s.sum = k) (hsub : s.Sublist tr) :
    VaultSound tr (vaultInsert v k s) := by
  rw [vaultInsert]
  by_cases hk : vaultHasKey v k <;> simp [hk]
  · exact hv
  · intro p hp
    rcases List.mem_append.mp hp with h1 | h2
    · exact hv p h1
    · simp at h2
      subst h2
      exact ⟨hs, hsub⟩

theorem insertSubsets_sound {tr : List Elem} {v : Vault} {subs : List (List Elem)}
    (hv : VaultSound tr v) (hsubs : ∀ l ∈ subs, l.Sublist tr) :
    VaultSound tr (insertSubsets v subs) := by
  induction subs generalizing v with
  | nil => simpa [insertSubsets] using hv
  | cons s0 rest ih =>
    rw [insertSubsets, List.foldl_cons]
    exact ih (vaultInsert_sound hv rfl (hsubs s0 (List.mem_cons_self _ _)))
      (fun l hl => hsubs l (List.mem_cons_of_mem _ hl))

/-! ### Combinations lemmas -/

theorem combinations_sublist : ∀ (r : Nat) (xs l : List Elem),
    l ∈ combinations r xs → l.Sublist xs := by
  intro r xs
  induction xs generalizing r with
  | nil =>
    intro l hl
    cases r with
    | zero => simp [combinations] at hl; simp [hl]
    | succ r => simp [combinations] at hl
  | cons x xs ih =>
    intro l hl
    cases r with
    | zero => simp [combinations] at hl; simp [hl]
    | succ r =>
      rw [combinations] at hl
      rcases List.mem_append.mp hl with h1 | h2
      · obtain ⟨l', hl', rfl⟩ := List.mem_map.mp h1
        exact (ih r l' hl').cons₂ x
      · exact (ih (r + 1) l h2).cons x

theorem sublist_mem_combinations {l xs : List Elem} (h : l.Sublist xs) :
    l ∈ combinations l.length xs := by
  induction h with
  | slnil => simp [combinations]
  | @cons l' xs' x h ih =>
    cases hl : l'.length with
    | zero =>
      rw [List.length_eq_zero] at hl
      subst hl
      simp [combinations]
    | succ n =>
      rw [hl] at ih
      rw [combinations]
      exact List.mem_append_right _ ih
  | @cons₂ l' xs' x h ih =>
    simp only [List.length_cons, combinations]
    exact List.mem_append_left _ (List.mem_map.mpr ⟨l', ih, rfl⟩)

/-! ### build_vault: soundness, completeness, and the 0 ↦ () entry -/

theorem build_vault_sound (tr : List Elem) : VaultSound tr (build_vault tr) := by
  rw [build_vault]
  apply insertSubsets_sound
  · intro p hp
    simp at hp
    subst hp
    exact ⟨rfl, List.nil_sublist tr⟩
  · intro l hl
    obtain ⟨r, _, hc⟩ := List.mem_flatMap.mp hl
    exact combinations_sublist r tr l hc

theorem build_vault_complete {tr l : List Elem} (h : l.Sublist tr) :
    l.sum ∈ vaultKeys (build_vault tr) := by
  rw [build_vault]
  cases hl : l.length with
  | zero =>
    rw [List.length_eq_zero] at hl
    subst hl
    apply insertSubsets_keys_mono
    simp [vaultKeys]
  | succ n =>
    apply insertSubsets_keys_of_mem
    apply List.mem_flatMap.mpr
    refine ⟨l.length, ?_, sublist_mem_combinations h⟩
    rw [List.mem_range'_1]
    constructor
    · omega
    · have := h.length_le
      omega

theorem insertSubsets_cons (subs : List (List Elem)) (v0 : Vault) :
    ∃ rest, insertSubsets ((0, []) :: v0) subs = (0, ([] : List Elem)) :: rest := by
  induction subs generalizing v0 with
  | nil => exact ⟨v0, rfl⟩
  | cons s0 rest ih =>
    rw [insertSubsets, List.foldl_cons]
    rw [vaultInsert]
    by_cases hk : vaultHasKey ((0, []) :: v0) s0.sum <;> simp [hk]
    · exact ih v0
    · exact ih (v0 ++ [(s0.sum, s0)])

theorem build_vault_zero (tr : List Elem) :
    ∃ rest, build_vault tr = (0, ([] : List Elem)) :: rest := by
  rw [build_vault]
  exact insertSubsets_cons _ []

theorem vaultLookup_build_zero (tr : List Elem) :
    vaultLookup (build_vault tr) 0 = some [] := by
  obtain ⟨rest, h⟩ := build_vault_zero tr
  rw [h, vaultLookup]
  simp

/-! ### Sequential search lemmas -/

theorem sequential_search_eq_some {t : Int} {lv rv : Vault} {s : Solution}
    (h : sequential_search t lv rv = some s) :
    ∃ p, p ∈ lv ∧ ∃ rsub, vaultLookup rv (t - (p : Int × List Elem).1) = some rsub ∧
      s = ⟨p.2 ++ rsub, t⟩ := by
  induction lv with
  | nil => simp [sequential_search] at h
  | cons p rest ih =>
    obtain ⟨ls, lsub⟩ := p
    rw [sequential_search] at h
    cases hr : vaultLookup rv (t - ls) with
    | some rsub =>
      rw [hr] at h
      simp at h
      exact ⟨(ls, lsub), List.mem_cons_self _ _, rsub, hr, h.symm⟩
    | none =>
      rw [hr] at h
      obtain ⟨p', hp', rsub, hrs, hs⟩ := ih h
      exact ⟨p', List.mem_cons_of_mem _ hp', rsub, hrs, hs⟩

theorem sequential_search_isSome {t : Int} {lv rv : Vault}
    (h : ∃ p ∈ lv, (vaultLookup rv (t - (p : Int × List Elem).1)).isSome) :
    (sequential_search t lv rv).isSome := by
  induction lv with
  | nil => simp at h
  | cons p rest ih =>
    obtain ⟨ls, lsub⟩ := p
    rw [sequential_search]
    cases hr : vaultLookup rv (t - ls) with
    | some rsub => simp
    | none =>
      apply ih
      obtain ⟨p', hp', hsome⟩ := h
      rcases List.mem_cons.mp hp' with h0 | h1
      · subst h0
        rw [hr] at hsome
        simp at hsome
      · exact ⟨p', h1, hsome⟩

/-! ### Parallel search: the value starmap computes equals the sequential one -/

theorem worker_eq_sequential (t : Int) (rv : Vault) : ∀ c : Vault,
    worker t rv c = sequential_search t c rv := by
  intro c
  induction c with
  | nil => rfl
  | cons p rest ih =>
    obtain ⟨ls, lsub⟩ := p
    rw [worker, sequential_search]
    cases vaultLookup rv (t - ls) with
    | some rsub => rfl
    | none => exact ih

theorem sequential_search_append (t : Int) (rv : Vault) (a b : Vault) :
    sequential_search t (a ++ b) rv =
      match sequential_search t a rv with
      | some s => some s
      | none => sequential_search t b rv := by
  induction a with
  | nil => simp [sequential_search]
  | cons p rest ih =>
    obtain ⟨ls, lsub⟩ := p
    rw [List.cons_append, sequential_search, sequential_search]
    cases vaultLookup rv (t - ls) with
    | some rsub => rfl
    | none => exact ih

theorem firstSome_map_eq_sequential (t : Int) (rv : Vault) : ∀ cs : List Vault,
    firstSome (cs.map (worker t rv)) = sequential_search t cs.flatten rv := by
  intro cs
  induction cs with
  | nil => rfl
  | cons c rest ih =>
    rw [List.map_cons, List.flatten_cons, sequential_search_append,
      worker_eq_sequential]
    cases h : sequential_search t c rv with
    | some s => rw [firstSome]
    | none => rw [firstSome, ih]

theorem chunksOfGo_flatten (k : Nat) : ∀ (fuel : Nat) (l : Vault),
    l.length ≤ fuel → (chunksOfGo k fuel l).flatten = l := by
  intro fuel
  induction fuel with
  | zero =>
    intro l hl
    have : l = [] := List.length_eq_zero.mp (Nat.le_zero.mp hl)
    subst this
    rfl
  | succ n ih =>
    intro l hl
    rw [chunksOfGo]
    by_cases h : l = []
    · simp [h]
    · rw [if_neg h, List.flatten_cons]
      have hpos : 0 < l.length := List.length_pos.mpr h
      have hdrop : (l.drop (max 1 k)).length ≤ n := by
        rw [List.length_drop]
        omega
      rw [ih _ hdrop]
      exact List.take_append_drop _ l

theorem chunksOf_flatten (k : Nat) (l : Vault) : (chunksOf k l).flatten = l :=
  chunksOfGo_flatten k l.length l (Nat.le_refl _)

theorem parallel_eq_sequential (workers : Nat) (t : Int) (lv rv : Vault) :
    parallel_search workers t lv rv = sequential_search t lv rv := by
  rw [parallel_search, parallelResults, firstSome_map_eq_sequential, parallelChunks,
    chunksOf_flatten]

/-- `firstSome` returns the first non-`None` entry: everything before it is
`None`. -/
theorem firstSome_eq_some {results : List (Option Solution)} {s : Solution}
    (h : firstSome results = some s) :
    ∃ i, i < results.length ∧ results.getD i none = some s ∧
      ∀ j, j < i → results.getD j none = none := by
  induction results with
  | nil => simp [firstSome] at h
  | cons r rest ih =>
    cases r with
    | some s' =>
      rw [firstSome] at h
      refine ⟨0, by simp, by simpa using h, by omega⟩
    | none =>
      rw [firstSome] at h
      obtain ⟨i, hi, hget, hbefore⟩ := ih h
      refine ⟨i + 1, by simpa using hi, by simpa using hget, ?_⟩
      intro j hj
      cases j with
      | zero => simp
      | succ j' => simpa using hbefore j' (by omega)

/-! ### Zero-target behaviour -/

theorem sequential_search_zero (lv rv : Vault) (rest : Vault)
    (hlv : lv = (0, ([] : List Elem)) :: rest)
    (hrv : vaultLookup rv 0 = some []) :
    sequential_search 0 lv rv = some ⟨[], 0⟩ := by
  subst hlv
  rw [sequential_search]
  have h0 : (0 : Int) - 0 = 0 := by ring
  rw [h0, hrv]
  rfl

theorem solveSeq_zero (S : List Elem) : solveSeq S 0 = some ⟨[], 0⟩ := by
  rw [solveSeq, TitanSolve]
  simp only [sieve_and_combine, Bool.false_eq_true, if_false]
  obtain ⟨rest, hl⟩ := build_vault_zero (split_tranches (sortNumbers S)).1
  exact sequential_search_zero _ _ rest hl
    (vaultLookup_build_zero (split_tranches (sortNumbers S)).2)

/-! ### The probe trace is the unfiltered needed list, cut at the first hit -/

theorem probedNeeded_take (t : Int) (lv rv : Vault) :
    ∃ k, probedNeeded t lv rv = (lv.map (fun p => t - p.1)).take k := by
  induction lv with
  | nil => exact ⟨0, rfl⟩
  | cons p rest ih =>
    obtain ⟨ls, lsub⟩ := p
    rw [probedNeeded]
    by_cases h : vaultHasKey rv (t - ls)
    · exact ⟨1, by simp [h]⟩
    · obtain ⟨k, hk⟩ := ih
      exact ⟨k + 1, by simp [h, hk]⟩

/-! ### Sorting and splitting -/

theorem sortNumbers_perm (l : List Elem) : (sortNumbers l).Perm l :=
  List.perm_insertionSort _ l

theorem split_tranches_append (ns : List Elem) :
    (split_tranches ns).1 ++ (split_tranches ns).2 = ns :=
  List.take_append_drop _ ns

/-! ### Exact-target search: completeness and soundness over the two vaults -/

theorem search_complete_sound {left right : List Elem} {t : Int}
    (h : ∃ l1 l2 : List Elem, l1.Sublist left ∧ l2.Sublist right ∧ l1.sum + l2.sum = t) :
    ∃ s, sequential_search t (build_vault left) (build_vault right) = some s ∧
      s.sum = t ∧ s.subset.sum = t ∧ s.subset.Sublist (left ++ right) := by
  obtain ⟨l1, l2, h1, h2, hsum⟩ := h
  have hkL : l1.sum ∈ vaultKeys (build_vault left) := build_vault_complete h1
  have hkR : l2.sum ∈ vaultKeys (build_vault right) := build_vault_complete h2
  obtain ⟨p, hp, hfst⟩ := List.mem_map.mp hkL
  have hneed : t - p.1 = l2.sum := by rw [hfst, ← hsum]; ring
  have hsome : (sequential_search t (build_vault left) (build_vault right)).isSome := by
    apply sequential_search_isSome
    refine ⟨p, hp, ?_⟩
    rw [hneed, vaultLookup_isSome_iff]
    exact hkR
  obtain ⟨s, hs⟩ := Option.isSome_iff_exists.mp hsome
  obtain ⟨q, hq, rsub, hlook, rfl⟩ := sequential_search_eq_some hs
  have hsoundL := build_vault_sound left q hq
  have hmemR := vaultLookup_mem hlook
  have hsoundR := build_vault_sound right _ hmemR
  refine ⟨_, hs, rfl, ?_, hsoundL.2.append hsoundR.2⟩
  rw [List.sum_append, hsoundL.1, hsoundR.1]
  ring

theorem solveSeq_eq_sequential (S : List Elem) (t : Int) :
    solveSeq S t = sequential_search t
      (build_vault (split_tranches (sortNumbers S)).1)
      (build_vault (split_tranches (sortNumbers S)).2) := rfl

/-- Main completeness/soundness fact behind the spec's first testable
property, for the sequential search: whenever some sub-multiset of `S`
(each position used at most once, i.e. a subperm) sums to `t`, the solver
returns a Solution whose subset sums to exactly `t` and is itself a
sub-multiset of `S`. -/
theorem solveSeq_finds {S : List Elem} {t : Int}
    (h : ∃ l : List Elem, l.Subperm S ∧ l.sum = t) :
    ∃ s, solveSeq S t = some s ∧ s.sum = t ∧ s.subset.sum = t ∧ s.subset.Subperm S := by
  obtain ⟨l, hsub, hsum⟩ := h
  have hperm : (sortNumbers S).Perm S := sortNumbers_perm S
  have hsub' : l.Subperm (sortNumbers S) := hsub.trans hperm.symm.subperm
  obtain ⟨l', hl'perm, hl'sub⟩ := hsub'
  have hns := split_tranches_append (sortNumbers S)
  rw [← hns] at hl'sub
  obtain ⟨l1, l2, heq, h1, h2⟩ := List.sublist_append_iff.mp hl'sub
  have hsums : l1.sum + l2.sum = t := by
    have hps := hl'perm.sum_eq
    rw [heq, List.sum_append, hsum] at hps
    exact hps
  obtain ⟨s, hs, hssum, hsubsum, hsl⟩ := search_complete_sound ⟨l1, l2, h1, h2, hsums⟩
  rw [hns] at hsl
  refine ⟨s, ?_, hssum, hsubsum, hsl.subperm.trans hperm.subperm⟩
  rw [solveSeq_eq_sequential]
  exact hs

/-! ### Remaining helper lemmas -/

theorem build_vault_key_iff (tr : List Elem) (k : Int) :
    k ∈ vaultKeys (build_vault tr) ↔ ∃ l : List Elem, l.Sublist tr ∧ l.sum = k := by
  constructor
  · intro h
    obtain ⟨p, hp, hfst⟩ := List.mem_map.mp h
    have hs := build_vault_sound tr p hp
    exact ⟨p.2, hs.2, by rw [hs.1, hfst]⟩
  · rintro ⟨l, hsub, rfl⟩
    exact build_vault_complete hsub

theorem solvePar_eq_parallel (workers : Nat) (S : List Elem) (t : Int) :
    solvePar workers S t = parallel_search workers t
      (build_vault (split_tranches (sortNumbers S)).1)
      (build_vault (split_tranches (sortNumbers S)).2) := rfl

theorem solveSeq_empty_ne {t : Int} (ht : t ≠ 0) : solveSeq [] t = none := by
  rw [solveSeq_eq_sequential]
  have e : build_vault (split_tranches (sortNumbers ([] : List Elem))).1
      = [(0, [])] := rfl
  have e2 : build_vault (split_tranches (sortNumbers ([] : List Elem))).2
      = [(0, [])] := rfl
  rw [e, e2, sequential_search]
  have h : ¬((0 : Int) = t - 0) := by
    intro h0
    apply ht
    omega
  rw [vaultLookup, if_neg h, vaultLookup]
  rfl

theorem length_le_sum_of_one_le {l : List Elem} (h : ∀ x ∈ l, 1 ≤ x) :
    (l.length : Int) ≤ l.sum := by
  induction l with
  | nil => simp
  | cons x xs ih =>
    simp only [List.length_cons, List.sum_cons]
    have hx := h x (List.mem_cons_self _ _)
    have hxs := ih (fun y hy => h y (List.mem_cons_of_mem _ hy))
    push_cast
    linarith

/-! ## The claims -/

/-- C1: for every sequence `S` and every target `t` that is the sum of some
sub-multiset of `S` (each position used at most once, i.e. a subperm of
`S`), the solver returns a Solution whose subset sums to exactly `t`,
whose elements are drawn from `S`, each position used at most once
(the subset is again a subperm of `S`). Proved for the search the cited
code implements (`_build_vault` + `_sequential_search`). -/
theorem claim1_solve_finds_reachable_target (S : List Elem) (t : Int)
    (h : ∃ l : List Elem, l.Subperm S ∧ l.sum = t) :
    ∃ s, solveSeq S t = some s ∧ s.sum = t ∧ s.subset.sum = t ∧ s.subset.Subperm S :=
  solveSeq_finds h

/-- Witness for C1 at `S = [1, 2]`, `t = 3`. -/
theorem claim1_witness :
    ∃ s, solveSeq [1, 2] 3 = some s ∧ s.sum = 3 ∧ s.subset.sum = 3 ∧
      s.subset.Subperm [1, 2] :=
  claim1_solve_finds_reachable_target [1, 2] 3
    ⟨[1, 2], List.Subperm.refl _, by decide⟩

/-- C2 (the algorithmic content, which is what the parallel code would
compute if its worker were executable): the value `_parallel_search`
denotes — first non-`None` chunk result in submission order, over chunks of
the left vault — is identical to the sequential search for every input,
every worker count and every target; in particular both are `none` when no
subset sums to the target. (The status of the claim itself is a code bug:
`_parallel_search` passes the locally defined `worker` closure to
`multiprocessing.Pool.starmap`, which cannot pickle a local function, so
parallel mode raises instead of returning this value.) -/
theorem claim2_parallel_value_eq_sequential (workers : Nat) (S : List Elem) (t : Int) :
    solvePar workers S t = solveSeq S t := by
  rw [solvePar_eq_parallel, solveSeq_eq_sequential]
  exact parallel_eq_sequential workers t _ _

/-- C3 counterexample: the claim says a candidate target is looked up
exactly only when it lies within the Vault's Bounds. On `solve([1,2], 100)`
the left vault is `build_vault [1]` and the right vault `build_vault [2]`,
whose true key bounds are `(0, 2)`; the search nevertheless performs the
exact membership lookup for candidate target `100`, far outside those
bounds — there is no bound sieve in the code at all (and `_build_vault`
returns only the dict, no Bounds). -/
theorem claim3_counterexample :
    (100 : Int) ∈ probedNeeded 100
      (build_vault (split_tranches (sortNumbers [1, 2])).1)
      (build_vault (split_tranches (sortNumbers [1, 2])).2) ∧
    specBounds (build_vault (split_tranches (sortNumbers [1, 2])).2) = (0, 2) ∧
    ¬((0 : Int) ≤ 100 ∧ (100 : Int) ≤ 2) := by decide

/-- C3 amended: `_build_vault` returns only the sum ↦ subset map and no
Bounds, and the search applies no bound pre-filter: the trace of candidate
targets it tests by exact membership is just the unfiltered list
`target - left_sum` over left-vault entries, cut at the first hit; and a
Solution is produced only when the needed complement is verified to be a
Vault key (exactness rests on Vault membership alone). -/
theorem claim3_amended_no_prefilter_membership_verified (t : Int) (lv rv : Vault)
    (s : Solution) (h : sequential_search t lv rv = some s) :
    (∃ k, probedNeeded t lv rv = (lv.map (fun p => t - p.1)).take k) ∧
    ∃ p, p ∈ lv ∧ ∃ rsub, vaultLookup rv (t - p.1) = some rsub ∧
      s = ⟨p.2 ++ rsub, t⟩ :=
  ⟨probedNeeded_take t lv rv, sequential_search_eq_some h⟩

/-- Witness for the amended C3 at `t = 3`, vaults of `[1,2]` and `[3,4]`. -/
theorem claim3_witness :
    sequential_search 3 (build_vault [1, 2]) (build_vault [3, 4]) = some ⟨[3], 3⟩ ∧
    ((∃ k, probedNeeded 3 (build_vault [1, 2]) (build_vault [3, 4]) =
        ((build_vault [1, 2]).map (fun p => 3 - p.1)).take k) ∧
      ∃ p, p ∈ build_vault [1, 2] ∧ ∃ rsub,
        vaultLookup (build_vault [3, 4]) (3 - p.1) = some rsub ∧
        (⟨[3], 3⟩ : Solution) = ⟨p.2 ++ rsub, 3⟩) :=
  ⟨by decide, claim3_amended_no_prefilter_membership_verified 3
    (build_vault [1, 2]) (build_vault [3, 4]) ⟨[3], 3⟩ (by decide)⟩

/-- C4 counterexample: the claim says only one tranche's powerset sums are
precomputed and the other tranche is explored by one task per subset-size
class `r = 1..|right tranche|`. On input `[1,2,3,4]` (right tranche
`[3,4]`, two size classes) with one worker, `solve` materializes the right
tranche's full powerset-sum vault (4 = 2² entries) in its PHASE 2, and the
parallel phase dispatches a single chunk task over left-vault items — not
two subset-size-class tasks. -/
theorem claim4_counterexample :
    (solveVaults [1, 2, 3, 4]).2.length = 4 ∧
    (split_tranches (sortNumbers [1, 2, 3, 4])).2.length = 2 ∧
    (parallelChunks 1 (solveVaults [1, 2, 3, 4]).1).length = 1 ∧
    (parallelChunks 1 (solveVaults [1, 2, 3, 4]).1).length ≠
      (split_tranches (sortNumbers [1, 2, 3, 4])).2.length := by decide

/-- C4 amended: the engine precomputes powerset-sum vaults for BOTH
tranches — the right tranche's vault materializes exactly the sums of all
its sub-multisets — and parallel mode dispatches one task per chunk of
left-vault entries (chunk size `max(1, |left vault| / workers)`), not one
per subset-size class of the right tranche. -/
theorem claim4_amended_both_vaults_materialized (numbers : List Elem) (k : Int) :
    k ∈ vaultKeys (solveVaults numbers).2 ↔
      ∃ l : List Elem, l.Sublist (split_tranches (sortNumbers numbers)).2 ∧ l.sum = k :=
  build_vault_key_iff _ k

/-- C5 counterexample: the claim says that on the first confirmed Solution
remaining tasks are cancelled (not-yet-started tasks never execute) and a
second Solution is never registered. On `solve([1,2,3,4], 3)` with 2
workers the left vault splits into two chunk tasks; the first already
yields the Solution `([3], 3)`, yet `pool.starmap` still executes the
second task, which registers a second, different Solution `([1,2], 3)` in
the results list — both tasks ran, nothing was cancelled. -/
theorem claim5_counterexample :
    parallelResults 2 3 (solveVaults [1, 2, 3, 4]).1 (solveVaults [1, 2, 3, 4]).2 =
      [some ⟨[3], 3⟩, some ⟨[1, 2], 3⟩] ∧
    ((parallelResults 2 3 (solveVaults [1, 2, 3, 4]).1
        (solveVaults [1, 2, 3, 4]).2).filter (fun r => r.isSome)).length = 2 := by
  decide

/-- C5 amended: there is no cancellation: `_parallel_search` executes every
chunk task unconditionally and collects all their results; several tasks
may each register a Solution. The coordinator commits exactly one of them —
whenever `some s` is returned, `s` is the result of the first task (in
submission order) that produced a Solution, every earlier task's result
being `None`. -/
theorem claim5_amended_first_result_wins (workers : Nat) (t : Int) (lv rv : Vault)
    (s : Solution) (h : parallel_search workers t lv rv = some s) :
    ∃ i, i < (parallelResults workers t lv rv).length ∧
      (parallelResults workers t lv rv).getD i none = some s ∧
      ∀ j, j < i → (parallelResults workers t lv rv).getD j none = none := by
  rw [parallel_search] at h
  exact firstSome_eq_some h

/-- Witness for the amended C5 on `solve([1,2,3,4], 3)` with 2 workers. -/
theorem claim5_witness :
    parallel_search 2 3 (solveVaults [1, 2, 3, 4]).1 (solveVaults [1, 2, 3, 4]).2 =
      some ⟨[3], 3⟩ ∧
    ∃ i, i < (parallelResults 2 3 (solveVaults [1, 2, 3, 4]).1
        (solveVaults [1, 2, 3, 4]).2).length ∧
      (parallelResults 2 3 (solveVaults [1, 2, 3, 4]).1
        (solveVaults [1, 2, 3, 4]).2).getD i none = some ⟨[3], 3⟩ ∧
      ∀ j, j < i → (parallelResults 2 3 (solveVaults [1, 2, 3, 4]).1
        (solveVaults [1, 2, 3, 4]).2).getD j none = none :=
  ⟨by decide, claim5_amended_first_result_wins 2 3 (solveVaults [1, 2, 3, 4]).1
    (solveVaults [1, 2, 3, 4]).2 ⟨[3], 3⟩ (by decide)⟩

/-- C6 counterexample: the claim says every Generator instance sums to
zero. `generate_test_instance` draws every element from
`random.randint(1, max_val)`; with `size = 3`, `max_val = 100` and the
(perfectly possible) draws all equal to 1 it produces `[1, 1, 1]`, whose
elements are all within the legal draw range yet sum to `3 ≠ 0` — no final
balancing element is appended. -/
theorem claim6_counterexample :
    generate_test_instance 3 100 (fun _ => 1) = [1, 1, 1] ∧
    (generate_test_instance 3 100 (fun _ => 1)).all
      (fun x => decide (1 ≤ x ∧ x ≤ 100)) = true ∧
    (generate_test_instance 3 100 (fun _ => 1)).sum ≠ 0 := by decide

/-- C6 amended: every Generator instance consists of draws from
`[1, max_val]`, so for `size ≥ 1` its total sum is positive — never zero;
`solve(instance, 0)` still returns a Solution, but only the trivial one:
the empty subset with sum 0, which every vault contains by construction. -/
theorem claim6_amended_generator_positive_sum (size maxv : Nat) (draw : Nat → Int)
    (hsize : 1 ≤ size) (hdraw : ∀ i, i < size → 1 ≤ draw i ∧ draw i ≤ maxv) :
    0 < (generate_test_instance size maxv draw).sum ∧
    solveSeq (generate_test_instance size maxv draw) 0 = some ⟨[], 0⟩ := by
  constructor
  · have hall : ∀ x ∈ generate_test_instance size maxv draw, 1 ≤ x := by
      intro x hx
      rw [generate_test_instance] at hx
      obtain ⟨i, hi, rfl⟩ := List.mem_map.mp hx
      exact (hdraw i (List.mem_range.mp hi)).1
    have hlen : (generate_test_instance size maxv draw).length = size := by
      simp [generate_test_instance]
    have hsum := length_le_sum_of_one_le hall
    rw [hlen] at hsum
    have hcast : (1 : Int) ≤ (size : Int) := by exact_mod_cast hsize
    linarith
  · exact solveSeq_zero _

/-- Witness for the amended C6 at `size = 3`, `max_val = 100`, all draws 1. -/
theorem claim6_witness :
    0 < (generate_test_instance 3 100 (fun _ => 1)).sum ∧
    solveSeq (generate_test_instance 3 100 (fun _ => 1)) 0 = some ⟨[], 0⟩ :=
  claim6_amended_generator_positive_sum 3 100 (fun _ => 1) (by decide)
    (fun i _ => ⟨by norm_num, by norm_num⟩)

/-- C8: on the empty input sequence the solver returns the empty Solution
with sum 0 for target 0, and the "not found" sentinel (`None`) for every
nonzero target. -/
theorem claim8_empty_sequence_boundary :
    solveSeq [] 0 = some ⟨[], 0⟩ ∧ ∀ t : Int, t ≠ 0 → solveSeq [] t = none :=
  ⟨solveSeq_zero [], fun _ ht => solveSeq_empty_ne ht⟩

/-- Witness for C8 with nonzero target 5. -/
theorem claim8_witness : solveSeq [] 0 = some ⟨[], 0⟩ ∧ solveSeq [] 5 = none :=
  ⟨claim8_empty_sequence_boundary.1, claim8_empty_sequence_boundary.2 5 (by decide)⟩

/-- C9: on `S = [1,2,3,5,8,13,21,34]` in max-sum mode (target absent) the
solver returns the full sequence as the subset with sum exactly 87. -/
theorem claim9_max_sum_scenario :
    TitanSolve [1, 2, 3, 5, 8, 13, 21, 34] none false 0 =
      some ⟨[1, 2, 3, 5, 8, 13, 21, 34], 87⟩ := by decide

/-- C10: for every input sequence `S`, target 0 in sequential mode returns
the Solution with empty witness subset and sum 0: every vault maps key 0 to
the empty tuple as its first entry, and the search probes left sum 0 first,
finding right complement 0 immediately. -/
theorem claim10_zero_target_empty_solution (S : List Elem) :
    solveSeq S 0 = some ⟨[], 0⟩ :=
  solveSeq_zero S

end Titan
